import Mathlib

/-!
Verification of the path-containment gate and the client-side credential
validator of the SDET_JETLAG_PHASE2_RUI repository.

The operative code lives in
`src/fuzzing_tests/test_file_path_restrictions.py`
(`FilePathRestrictionsFuzzer.is_path_allowed`, the deliberately string-prefix
based re-creation of the C++ `IsPathAllowed`, and
`FilePathRestrictionsFuzzer.is_path_allowed_safe`, the boundary-checked
comparison implementation) and in
`src/fuzzing_tests/test_authentication_system.py`
(`ClientAuthenticationFuzzer.validate_client_input`).

The embedding models the POSIX (`platform.system() != "Windows"`) branch of
the code, the branch under which the fuzz suite runs with
`allowed_root = "/home/CMU/RawRecords"`.  Python strings are `List Char`;
the ambient process state that the Python standard library reads
(the home directory for `os.path.expanduser`, the password database,
the working directory for `os.path.abspath`, and the symbolic links on disk
that `pathlib.Path.resolve` follows) is passed in explicitly.
-/

/-- A Python string, as its sequence of code points. -/
abbrev Str := List Char

/-- A Python value at the boundary of the fuzzed functions: the fuzzers are
called with `None`, numbers, lists and strings. -/
inductive PyValue where
  | pyNone
  | int (n : Int)
  | str (s : Str)
  | list (xs : List PyValue)

/-- Whether a `PyValue` is a string (Python `isinstance(x, str)`). -/
def PyValue.isStr : PyValue → Bool
  | .str _ => true
  | _ => false

/-- Python `s.startswith(p)` on strings: `isPrefixB p s` is true when `p` is
a prefix of `s`. -/
def isPrefixB : Str → Str → Bool
  | [], _ => true
  | _ :: _, [] => false
  | c :: p, d :: s => c == d && isPrefixB p s

/-- Python `str.split('/')`: the pieces of a string between the `'/'`
occurrences, keeping empty pieces, as `posixpath` and `os.path.realpath`
split paths. -/
def splitSep : Str → List Str
  | [] => [[]]
  | c :: rest =>
    let r := splitSep rest
    if c = '/' then [] :: r else (c :: r.headI) :: r.tail

/-- Python `'/'.join(comps)`. -/
def joinComps : List Str → Str
  | [] => []
  | [s] => s
  | s :: rest => s ++ '/' :: joinComps rest

/-- `str()` of a resolved absolute `pathlib.Path` from its list of path
components: `"/"` for the root itself, otherwise each component preceded
by `'/'`. -/
def joinSegs (segs : List Str) : Str :=
  if segs = [] then ['/'] else (segs.map (fun s => '/' :: s)).flatten

/-- Python `file_path.replace('\\', '/')` (a character-wise replacement). -/
def replaceBackslash (s : Str) : Str :=
  s.map (fun c => if c = '\\' then '/' else c)

/-- `posixpath.isabs`: the path begins with `'/'`. -/
def isabs (p : Str) : Bool := isPrefixB ['/'] p

/-- `posixpath.join(a, b)` for two parts: `b` if it is absolute, else `a`
and `b` glued with a single `'/'` unless `a` is empty or already ends in
`'/'`. -/
def joinPath (a b : Str) : Str :=
  if isabs b then b
  else if a = [] ∨ a.getLast? = some '/' then a ++ b
  else a ++ '/' :: b

/-- The component loop of `posixpath.normpath`: drop empty and `'.'`
components; `'..'` pops the previous component except when the path is
relative and there is nothing to pop (then it is kept) or the previous kept
component is itself `'..'`. -/
def normComps (initialSlashes : Nat) (acc : List Str) : List Str → List Str
  | [] => acc
  | comp :: rest =>
    if comp = [] ∨ comp = ['.'] then normComps initialSlashes acc rest
    else if comp ≠ ['.', '.'] ∨ (initialSlashes = 0 ∧ acc = []) ∨
        acc.getLast? = some ['.', '.'] then
      normComps initialSlashes (acc ++ [comp]) rest
    else if acc ≠ [] then normComps initialSlashes acc.dropLast rest
    else normComps initialSlashes acc rest

/-- `posixpath.normpath`: collapse duplicate separators and `'.'`/`'..'`
components lexically, preserving the POSIX special case of a path that
begins with exactly two slashes. -/
def normpath (p : Str) : Str :=
  if p = [] then ['.']
  else
    let initialSlashes : Nat :=
      if isabs p then
        if isPrefixB ['/', '/'] p && !isPrefixB ['/', '/', '/'] p then 2 else 1
      else 0
    let res := List.replicate initialSlashes '/' ++
      joinComps (normComps initialSlashes [] (splitSep p))
    if res = [] then ['.'] else res

/-- `s.rstrip('/')`. -/
def rstripSlash (s : Str) : Str :=
  (s.reverse.dropWhile (fun c => c = '/')).reverse

/-- The split of a string at its first `'/'` (Python `path.find('/', 1)`
inside `expanduser`): the part before it and the remainder beginning with
the `'/'` itself. -/
def splitAtSep : Str → Str × Str
  | [] => ([], [])
  | c :: t =>
    if c = '/' then ([], c :: t)
    else
      let p := splitAtSep t
      (c :: p.1, p.2)

/-- A user name lookup standing for the password database `pwd` that
`posixpath.expanduser` consults for `~user` forms. -/
def lookupUser (users : List (Str × Str)) (name : Str) : Option Str :=
  match users with
  | [] => none
  | (u, h) :: rest => if name = u then some h else lookupUser rest name

/-- `posixpath.expanduser`: expand a leading `~` to the home directory
(`home` stands for the `HOME` environment variable) and `~user` to that
user's home directory; an unknown user leaves the path unchanged.  The
trailing slashes of the home directory are stripped, and an empty result
becomes `"/"`. -/
def expanduser (home : Str) (users : List (Str × Str)) (p : Str) : Str :=
  match p with
  | '~' :: rest =>
    let pr := splitAtSep rest
    let uh? := if pr.1 = [] then some home else lookupUser users pr.1
    match uh? with
    | none => p
    | some uh =>
      let r := rstripSlash uh ++ pr.2
      if r = [] then ['/'] else r
  | _ => p

/-- `posixpath.abspath`: join with the working directory when the path is
relative, then normalize. -/
def abspath (cwd p : Str) : Str :=
  normpath (if isabs p then p else joinPath cwd p)

/-- `FilePathRestrictionsFuzzer.is_path_allowed`
(`src/fuzzing_tests/test_file_path_restrictions.py`, lines 39-85), the
faithful re-creation of the vulnerable C++ `IsPathAllowed`: expand a
leading `~`, make the path absolute without further normalization, and
then accept exactly when the allowed root is a raw character prefix of the
path (`len(file_path) >= len(root_path) and file_path.startswith(root_path)`).
A non-string argument raises `AttributeError` at `file_path.startswith`,
which the blanket `except` turns into `False`. -/
def is_path_allowed (home : Str) (users : List (Str × Str)) (cwd : Str)
    (allowedRoot : Str) (file_path : PyValue) : Bool :=
  match file_path with
  | .str p =>
    let p1 := if isPrefixB ['~'] p then expanduser home users p else p
    let p2 := if isabs p1 then p1 else abspath cwd p1
    let root := if isabs allowedRoot then allowedRoot else abspath cwd allowedRoot
    decide (root.length ≤ p2.length) && isPrefixB root p2
  | _ => false

/-- The symbolic links on disk, as a finite table from an absolute path
(its component list) to the absolute target's component list. -/
def lookupLink (links : List (List Str × List Str)) (k : List Str) :
    Option (List Str) :=
  match links with
  | [] => none
  | (key, tgt) :: rest => if k = key then some tgt else lookupLink rest k

/-- The purely lexical component walk of `os.path.realpath`: skip empty and
`'.'` components, let `'..'` pop the previous component (with no effect at
the root), and keep every other component.  This is the walk on a path
whose components are not symbolic links. -/
def lexLoop (acc : List Str) : List Str → List Str
  | [] => acc
  | name :: rest =>
    if name = [] ∨ name = ['.'] then lexLoop acc rest
    else if name = ['.', '.'] then lexLoop acc.dropLast rest
    else lexLoop (acc ++ [name]) rest

/-- One pass of the component walk of `os.path.realpath` (what
`pathlib.Path.resolve` performs, non-strict): like `lexLoop`, except that
when the path accumulated so far is a symbolic link the pass stops and
hands back the target followed by the remaining components.  Link targets
are recorded in the table as absolute component lists. -/
def realStep (links : List (List Str × List Str)) (acc : List Str) :
    List Str → List Str ⊕ List Str
  | [] => Sum.inl acc
  | name :: rest =>
    if name = [] ∨ name = ['.'] then realStep links acc rest
    else if name = ['.', '.'] then realStep links acc.dropLast rest
    else
      match lookupLink links (acc ++ [name]) with
      | some target => Sum.inr (target ++ rest)
      | none => realStep links (acc ++ [name]) rest

/-- The full component walk of `os.path.realpath`: restart from the root at
every symbolic-link target, with the number of link resolutions bounded by
fuel standing for the resolver's cycle guard; once the bound is exhausted
the remaining components are walked lexically. -/
def realLoop (links : List (List Str × List Str)) (fuel : Nat)
    (names : List Str) : List Str :=
  match fuel with
  | 0 => lexLoop [] names
  | f + 1 =>
    match realStep links [] names with
    | Sum.inl res => res
    | Sum.inr names' => realLoop links f names'

/-- `pathlib.Path(p).resolve()` (non-strict) rendered as a string: a path
with an embedded null code point makes the underlying `os.lstat` raise
`ValueError` (returned here as `none`); a relative path is joined to the
working directory; then the components are walked with symbolic-link
resolution. -/
def pyResolve (links : List (List Str × List Str)) (cwd p : Str) :
    Option Str :=
  if '\x00' ∈ p then none
  else
    some (joinSegs (realLoop links 40
      (splitSep (if isabs p then p else joinPath cwd p))))

/-- The exact-boundary comparison of `is_path_allowed_safe`
(`src/fuzzing_tests/test_file_path_restrictions.py`, lines 102-108): accept
the root itself, or a path extending the root at a separator boundary
(`root + '/'` or `root + '\\'`); block everything else. -/
def containmentDecision (abs_str root_str : Str) : Bool :=
  if abs_str = root_str then true
  else if isPrefixB (root_str ++ ['/']) abs_str ||
      isPrefixB (root_str ++ ['\\']) abs_str then true
  else false

/-- `FilePathRestrictionsFuzzer.is_path_allowed_safe`
(`src/fuzzing_tests/test_file_path_restrictions.py`, lines 87-111), the
boundary-checked implementation: on POSIX replace `'\\'` by `'/'`, resolve
both the candidate and the allowed root with `pathlib.Path.resolve`, and
compare with the exact boundary check.  Any exception (for instance the
`ValueError` of an embedded null, or a non-string argument reaching
`.replace`) yields `False`. -/
def is_path_allowed_safe (links : List (List Str × List Str)) (cwd : Str)
    (allowedRoot : Str) (file_path : PyValue) : Bool :=
  match file_path with
  | .str p =>
    match pyResolve links cwd (replaceBackslash p),
        pyResolve links cwd allowedRoot with
    | some abs_str, some root_str => containmentDecision abs_str root_str
    | _, _ => false
  | _ => false

/-- The canonicalization step performed inside `is_path_allowed_safe`:
separator replacement followed by `resolve` normalization. -/
def canonicalize_safe (links : List (List Str × List Str)) (cwd p : Str) :
    Option Str :=
  pyResolve links cwd (replaceBackslash p)

/-- The canonicalization step performed inside `is_path_allowed`:
the `expanduser` expansion of a leading `~` followed by `abspath` when the
result is not yet absolute. -/
def canonicalize_vuln (home : Str) (users : List (Str × Str)) (cwd p : Str) :
    Str :=
  let p1 := if isPrefixB ['~'] p then expanduser home users p else p
  if isabs p1 then p1 else abspath cwd p1

/-- `self.allowed_root_linux = "/home/CMU/RawRecords"`, the allowed root the
fuzzer uses on a non-Windows host. -/
def allowed_root : Str := "/home/CMU/RawRecords".toList

/-- The component list of `allowed_root`. -/
def rootSegs : List Str := ["home".toList, "CMU".toList, "RawRecords".toList]

/-- The component list of a directory outside the allowed root, the target
of the escaping symbolic link in the symlink scenarios. -/
def outsideSegs : List Str := ["outside".toList, "secret".toList]

/-- A concrete working directory for closed evaluations. -/
def cwd0 : Str := "/tmp".toList

/-- A concrete home directory for closed evaluations. -/
def home0 : Str := "/home/CMU".toList

/-- A concrete (empty) password database for closed evaluations. -/
def users0 : List (Str × Str) := []

/-- `self.max_password_length = 16` of `ClientAuthenticationFuzzer`
(`src/fuzzing_tests/test_authentication_system.py`, line 26), mirroring
`PasswordEdit->MaxLength = 16`. -/
def max_password_length : Nat := 16

/-- The `control_chars` list of `validate_client_input`
(`src/fuzzing_tests/test_authentication_system.py`, lines 51-53): the C0
control characters except NUL (checked separately) and except the
whitespace controls `\x09`-`\x0d`. -/
def control_chars : List Char :=
  ['\x01', '\x02', '\x03', '\x04', '\x05', '\x06', '\x07', '\x08',
   '\x0e', '\x0f', '\x10', '\x11', '\x12', '\x13', '\x14', '\x15',
   '\x16', '\x17', '\x18', '\x19', '\x1a', '\x1b', '\x1c', '\x1d',
   '\x1e', '\x1f']

/-- `ClientAuthenticationFuzzer.validate_client_input`
(`src/fuzzing_tests/test_authentication_system.py`, lines 34-59): reject
`None`, non-strings, passwords longer than 16 code points, passwords with
an embedded null, and passwords containing a blocked control character;
accept everything else.  The reason messages are kept except that the
per-character `repr` interpolation of the control-character message is
dropped. -/
def validate_client_input (password : PyValue) : Bool × String :=
  match password with
  | .pyNone => (false, "Password cannot be None")
  | .str s =>
    if max_password_length < s.length then
      (false, "Password exceeds maximum length of 16")
    else if '\x00' ∈ s then
      (false, "Null bytes not allowed in GUI input")
    else
      match control_chars.find? (fun c => s.contains c) with
      | some _ => (false, "Control character not allowed")
      | none => (true, "Client validation passed")
  | _ => (false, "Password must be string")

/-! ### Helper lemmas about the string and path primitives -/

theorem isPrefixB_append_self (p t : Str) : isPrefixB p (p ++ t) = true := by
  induction p with
  | nil => rfl
  | cons c p ih => simp [isPrefixB, ih]

theorem isPrefixB_refl (p : Str) : isPrefixB p p = true := by
  simpa using isPrefixB_append_self p []

theorem isPrefixB_length_le (p s : Str) (h : isPrefixB p s = true) :
    p.length ≤ s.length := by
  induction p generalizing s with
  | nil => simp
  | cons c p ih =>
    cases s with
    | nil => simp [isPrefixB] at h
    | cons d s =>
      simp only [isPrefixB, Bool.and_eq_true] at h
      simpa using ih s h.2

theorem isPrefixB_append_cancel (p a b : Str) :
    isPrefixB (p ++ a) (p ++ b) = isPrefixB a b := by
  induction p with
  | nil => rfl
  | cons c p ih => simp [isPrefixB, ih]

theorem splitSep_ne_nil (s : Str) : splitSep s ≠ [] := by
  cases s with
  | nil => simp [splitSep]
  | cons c t =>
    simp only [splitSep]
    split <;> simp

theorem splitSep_sep (s : Str) : splitSep ('/' :: s) = [] :: splitSep s := by
  simp [splitSep]

theorem splitSep_cons_ne (c : Char) (s : Str) (h : c ≠ '/') :
    splitSep (c :: s) = (c :: (splitSep s).headI) :: (splitSep s).tail := by
  simp [splitSep, h]

theorem headI_cons_tail_of_ne_nil (l : List Str) (h : l ≠ []) :
    l.headI :: l.tail = l := by
  cases l with
  | nil => exact absurd rfl h
  | cons a as => rfl

theorem splitSep_append_no_sep (a b : Str) (h : ∀ c ∈ a, c ≠ '/') :
    splitSep (a ++ b) =
      (a ++ (splitSep b).headI) :: (splitSep b).tail := by
  induction a with
  | nil =>
    simpa using (headI_cons_tail_of_ne_nil (splitSep b) (splitSep_ne_nil b)).symm
  | cons c a ih =>
    have hc : c ≠ '/' := h c (List.mem_cons_self c a)
    rw [List.cons_append, splitSep_cons_ne c _ hc,
      ih (fun d hd => h d (List.mem_cons_of_mem c hd))]
    simp

theorem splitSep_no_sep (s : Str) (h : ∀ c ∈ s, c ≠ '/') : splitSep s = [s] := by
  have := splitSep_append_no_sep s [] h
  simpa [splitSep] using this

theorem splitSep_chars (s : Str) :
    ∀ x ∈ splitSep s, ∀ c ∈ x, c ∈ s ∧ c ≠ '/' := by
  induction s with
  | nil =>
    intro x hx c hc
    simp [splitSep] at hx
    subst hx
    simp at hc
  | cons d t ih =>
    intro x hx c hc
    by_cases hd : d = '/'
    · subst hd
      rw [splitSep_sep] at hx
      rcases List.mem_cons.mp hx with h1 | h1
      · subst h1; simp at hc
      · have := ih x h1 c hc
        exact ⟨List.mem_cons_of_mem _ this.1, this.2⟩
    · rw [splitSep_cons_ne d t hd] at hx
      rcases List.mem_cons.mp hx with h1 | h1
      · subst h1
        rcases List.mem_cons.mp hc with h2 | h2
        · subst h2; exact ⟨List.mem_cons_self _ _, hd⟩
        · have hm : (splitSep t).headI ∈ splitSep t := by
            have hne := splitSep_ne_nil t
            cases hh : splitSep t with
            | nil => exact absurd hh hne
            | cons y ys => simp [hh]
          have := ih _ hm c h2
          exact ⟨List.mem_cons_of_mem _ this.1, this.2⟩
      · have hm : x ∈ splitSep t := by
          have hne := splitSep_ne_nil t
          cases hh : splitSep t with
          | nil => exact absurd hh hne
          | cons y ys =>
            rw [hh] at h1
            exact hh ▸ List.mem_cons_of_mem _ h1
        have := ih x hm c hc
        exact ⟨List.mem_cons_of_mem _ this.1, this.2⟩

/-- A path component the resolve loop neither skips nor pops. -/
def goodSeg (x : Str) : Prop := x ≠ [] ∧ x ≠ ['.'] ∧ x ≠ ['.', '.']

instance goodSeg.instDecidable (x : Str) : Decidable (goodSeg x) := by
  unfold goodSeg
  infer_instance

theorem lexLoop_clean (acc names : List Str)
    (h : ∀ n ∈ names, goodSeg n) :
    lexLoop acc names = acc ++ names := by
  induction names generalizing acc with
  | nil => simp [lexLoop]
  | cons n rest ih =>
    obtain ⟨h1, h2, h3⟩ := h n (List.mem_cons_self n rest)
    rw [lexLoop]
    simp only [h1, h2, h3, or_self, if_false]
    rw [ih _ (fun m hm => h m (List.mem_cons_of_mem n hm))]
    simp

theorem lexLoop_mem (acc names : List Str)
    (h : ∀ x ∈ acc, goodSeg x) :
    ∀ x ∈ lexLoop acc names, goodSeg x ∧ (x ∈ acc ∨ x ∈ names) := by
  induction names generalizing acc with
  | nil =>
    intro x hx
    rw [lexLoop] at hx
    exact ⟨h x hx, Or.inl hx⟩
  | cons n rest ih =>
    intro x hx
    rw [lexLoop] at hx
    by_cases hskip : n = [] ∨ n = ['.']
    · rw [if_pos hskip] at hx
      rcases ih acc h x hx with ⟨hg, hin⟩
      exact ⟨hg, hin.imp id (List.mem_cons_of_mem n)⟩
    · rw [if_neg hskip] at hx
      by_cases hdd : n = ['.', '.']
      · rw [if_pos hdd] at hx
        have hdl : ∀ y ∈ acc.dropLast, goodSeg y := fun y hy =>
          h y ((List.dropLast_sublist acc).subset hy)
        rcases ih acc.dropLast hdl x hx with ⟨hg, hin⟩
        refine ⟨hg, hin.imp (fun hy => (List.dropLast_sublist acc).subset hy)
          (List.mem_cons_of_mem n)⟩
      · rw [if_neg hdd] at hx
        have hgn : goodSeg n := ⟨fun he => hskip (Or.inl he), fun he => hskip (Or.inr he), hdd⟩
        have hacc : ∀ y ∈ acc ++ [n], goodSeg y := by
          intro y hy
          rcases List.mem_append.mp hy with hy | hy
          · exact h y hy
          · simp at hy; subst hy; exact hgn
        rcases ih (acc ++ [n]) hacc x hx with ⟨hg, hin⟩
        refine ⟨hg, ?_⟩
        rcases hin with hy | hy
        · rcases List.mem_append.mp hy with hy | hy
          · exact Or.inl hy
          · simp at hy; subst hy
            exact Or.inr (List.mem_cons_self x rest)
        · exact Or.inr (List.mem_cons_of_mem n hy)

theorem realStep_no_links (acc names : List Str) :
    realStep [] acc names = Sum.inl (lexLoop acc names) := by
  induction names generalizing acc with
  | nil => rfl
  | cons n rest ih =>
    rw [realStep, lexLoop]
    by_cases hskip : n = [] ∨ n = ['.']
    · rw [if_pos hskip, if_pos hskip, ih]
    · rw [if_neg hskip, if_neg hskip]
      by_cases hdd : n = ['.', '.']
      · rw [if_pos hdd, if_pos hdd, ih]
      · rw [if_neg hdd, if_neg hdd]
        simp only [lookupLink]
        exact ih _

theorem realLoop_no_links (fuel : Nat) (names : List Str) :
    realLoop [] fuel names = lexLoop [] names := by
  cases fuel with
  | zero => rfl
  | succ f => rw [realLoop, realStep_no_links]

theorem replaceBackslash_append (a b : Str) :
    replaceBackslash (a ++ b) = replaceBackslash a ++ replaceBackslash b := by
  simp [replaceBackslash]

theorem replaceBackslash_eq_self (s : Str) (h : '\\' ∉ s) :
    replaceBackslash s = s := by
  induction s with
  | nil => rfl
  | cons c t ih =>
    have hc : c ≠ '\\' := fun he => h (he ▸ List.mem_cons_self c t)
    simp only [replaceBackslash, List.map_cons, if_neg hc]
    exact congrArg (c :: ·) (ih (fun hm => h (List.mem_cons_of_mem c hm)))

theorem not_backslash_mem_replaceBackslash (s : Str) :
    '\\' ∉ replaceBackslash s := by
  intro h
  rcases List.mem_map.mp h with ⟨c, _, hc⟩
  by_cases hb : c = '\\' <;> simp [hb] at hc

theorem null_mem_replaceBackslash (s : Str) :
    '\x00' ∈ replaceBackslash s ↔ '\x00' ∈ s := by
  constructor
  · intro h
    rcases List.mem_map.mp h with ⟨c, hm, hc⟩
    by_cases hb : c = '\\' <;> simp [hb] at hc
    exact hc ▸ hm
  · intro h
    exact List.mem_map.mpr ⟨'\x00', h, by simp⟩

theorem joinSegs_cons_eq (s : Str) (rest : List Str) :
    joinSegs (s :: rest) =
      '/' :: (s ++ (rest.map (fun x => '/' :: x)).flatten) := by
  simp [joinSegs]

theorem isabs_joinSegs (segs : List Str) : isabs (joinSegs segs) = true := by
  cases segs with
  | nil => rfl
  | cons s rest => simp [joinSegs_cons_eq, isabs, isPrefixB]

theorem mem_of_mem_joinSegs (segs : List Str) (c : Char)
    (h : c ∈ joinSegs segs) : c = '/' ∨ ∃ x ∈ segs, c ∈ x := by
  cases segs with
  | nil =>
    left
    simpa [joinSegs] using h
  | cons s rest =>
    rw [joinSegs_cons_eq] at h
    rcases List.mem_cons.mp h with h | h
    · exact Or.inl h
    · rcases List.mem_append.mp h with h | h
      · exact Or.inr ⟨s, List.mem_cons_self s rest, h⟩
      · rcases List.mem_flatten.mp h with ⟨l, hl, hc⟩
        rcases List.mem_map.mp hl with ⟨x, hx, rfl⟩
        rcases List.mem_cons.mp hc with h | h
        · exact Or.inl h
        · exact Or.inr ⟨x, List.mem_cons_of_mem s hx, h⟩

theorem splitSep_seg_slash (a rest : Str) (h : ∀ c ∈ a, c ≠ '/') :
    splitSep (a ++ '/' :: rest) = a :: splitSep rest := by
  rw [splitSep_append_no_sep a _ h, splitSep_sep]
  simp

theorem lexLoop_skip_nil (acc rest : List Str) :
    lexLoop acc ([] :: rest) = lexLoop acc rest := by
  rw [lexLoop]
  simp

theorem splitSep_root_slash (X : Str) :
    splitSep (allowed_root ++ '/' :: X) =
      [] :: "home".toList :: "CMU".toList :: "RawRecords".toList ::
        splitSep X := by
  rw [show allowed_root ++ '/' :: X =
      '/' :: ("home".toList ++ '/' :: ("CMU".toList ++ '/' ::
        ("RawRecords".toList ++ '/' :: X))) from rfl,
    splitSep_sep, splitSep_seg_slash _ _ (by decide),
    splitSep_seg_slash _ _ (by decide), splitSep_seg_slash _ _ (by decide)]

theorem splitSep_root_nosep (S : Str) (h : ∀ c ∈ S, c ≠ '/') :
    splitSep (allowed_root ++ S) =
      [[], "home".toList, "CMU".toList, "RawRecords".toList ++ S] := by
  rw [show allowed_root ++ S =
      '/' :: ("home".toList ++ '/' :: ("CMU".toList ++ '/' ::
        ("RawRecords".toList ++ S))) from rfl,
    splitSep_sep, splitSep_seg_slash _ _ (by decide),
    splitSep_seg_slash _ _ (by decide), splitSep_no_sep _ ?_]
  intro c hc
  rcases List.mem_append.mp hc with hc | hc
  · have hr : ∀ d ∈ "RawRecords".toList, d ≠ '/' := by decide
    exact hr c hc
  · exact h c hc

theorem isabs_root_append (X : Str) : isabs (allowed_root ++ X) = true := rfl

theorem pyResolve_allowed_root (cwd : Str) :
    pyResolve [] cwd allowed_root = some allowed_root := rfl

theorem goodSeg_raw_append (S : Str) : goodSeg ("RawRecords".toList ++ S) := by
  have he : "RawRecords".toList ++ S = 'R' :: ("awRecords".toList ++ S) := rfl
  rw [goodSeg, he]
  refine ⟨List.cons_ne_nil _ _, ?_, ?_⟩ <;>
  · intro h
    rw [List.cons.injEq] at h
    exact absurd h.1 (by decide)

theorem joinSegs_root_append (S : Str) :
    joinSegs ["home".toList, "CMU".toList, "RawRecords".toList ++ S] =
      allowed_root ++ S := by
  simp only [joinSegs_cons_eq, List.map_cons, List.map_nil, List.flatten_cons,
    List.flatten_nil, List.append_nil]
  rfl

theorem lexLoop_push (acc rest : List Str) (n : Str) (h : goodSeg n) :
    lexLoop acc (n :: rest) = lexLoop (acc ++ [n]) rest := by
  obtain ⟨h1, h2, h3⟩ := h
  rw [lexLoop]
  simp [h1, h2, h3]

theorem splitSep_root_append (X : Str) :
    splitSep (allowed_root ++ X) =
      [] :: "home".toList :: "CMU".toList ::
        ("RawRecords".toList ++ (splitSep X).headI) :: (splitSep X).tail := by
  rw [show allowed_root ++ X =
      '/' :: ("home".toList ++ '/' :: ("CMU".toList ++ '/' ::
        ("RawRecords".toList ++ X))) from rfl,
    splitSep_sep, splitSep_seg_slash _ _ (by decide),
    splitSep_seg_slash _ _ (by decide),
    splitSep_append_no_sep "RawRecords".toList X (by decide)]

theorem lexLoop_no_dd (acc names : List Str)
    (h : ∀ n ∈ names, n ≠ ['.', '.']) :
    lexLoop acc names =
      acc ++ names.filter (fun n => !decide (n = [] ∨ n = ['.'])) := by
  induction names generalizing acc with
  | nil => simp [lexLoop]
  | cons n rest ih =>
    rw [lexLoop]
    by_cases hskip : n = [] ∨ n = ['.']
    · have hp : (!decide (n = [] ∨ n = ['.'])) = false := by simp [hskip]
      rw [if_pos hskip, ih _ (fun m hm => h m (List.mem_cons_of_mem n hm)),
        List.filter_cons, hp]
      simp
    · have hp : (!decide (n = [] ∨ n = ['.'])) = true := by simp [hskip]
      rw [if_neg hskip, if_neg (h n (List.mem_cons_self n rest)),
        ih _ (fun m hm => h m (List.mem_cons_of_mem n hm)),
        List.filter_cons, hp]
      simp

theorem joinSegs_root_sibling (P0 : Str) (F : List Str) :
    joinSegs ((([] : List Str) ++ ["home".toList] ++ ["CMU".toList] ++
        ["RawRecords".toList ++ P0]) ++ F) =
      allowed_root ++ (P0 ++ (F.map (fun s => '/' :: s)).flatten) := by
  rw [show ((([] : List Str) ++ ["home".toList] ++ ["CMU".toList] ++
        ["RawRecords".toList ++ P0]) ++ F) =
      "home".toList :: "CMU".toList :: ("RawRecords".toList ++ P0) :: F
      from rfl,
    joinSegs_cons_eq, List.map_cons, List.map_cons, List.flatten_cons,
    List.flatten_cons,
    show allowed_root ++ (P0 ++ (F.map (fun s => '/' :: s)).flatten) =
      '/' :: ("home".toList ++ '/' :: ("CMU".toList ++ '/' ::
        ("RawRecords".toList ++ (P0 ++ (F.map (fun s => '/' :: s)).flatten))))
      from rfl]
  simp

theorem containment_root_cons_false (c : Char) (z : Str)
    (hc1 : c ≠ '/') (hc2 : c ≠ '\\') :
    containmentDecision (allowed_root ++ c :: z) allowed_root = false := by
  have h1 : ¬(allowed_root ++ c :: z = allowed_root) := by
    intro he
    have := List.append_cancel_left (he.trans (List.append_nil allowed_root).symm)
    exact List.cons_ne_nil c z this
  have hb1 : ('/' == c) = false := by
    rw [beq_eq_false_iff_ne]
    exact fun he => hc1 he.symm
  have hb2 : ('\\' == c) = false := by
    rw [beq_eq_false_iff_ne]
    exact fun he => hc2 he.symm
  have h2 : isPrefixB (allowed_root ++ ['/']) (allowed_root ++ c :: z) =
      false := by
    rw [isPrefixB_append_cancel]
    simp [isPrefixB, hb1]
  have h3 : isPrefixB (allowed_root ++ ['\\']) (allowed_root ++ c :: z) =
      false := by
    rw [isPrefixB_append_cancel]
    simp [isPrefixB, hb2]
  rw [containmentDecision, if_neg h1, h2, h3]
  simp

/-- C1 (amended): for the boundary-checked validator `is_path_allowed_safe`
(with no symbolic links involved), every candidate `R ++ S` is denied when
the non-empty suffix `S` begins with a character other than the separators
`'/'` and `'\'` and none of its separator-split pieces is a `..` segment —
this covers the sibling `R ++ "_backup"` as well as deep siblings such as
`R ++ "_backup/file.txt"`.  The claim as frozen fails three ways (see the
counterexample): the raw-prefix validator `is_path_allowed` accepts every
`R`-prefixed string, and even the safe validator accepts a suffix beginning
with the input separator `'\'` (not the canonical `'/'`) and a suffix whose
`..` segments traverse back into the root. -/
theorem c1_prefix_boundary_amended (cwd : Str) (c : Char) (t : Str)
    (hc1 : c ≠ '/') (hc2 : c ≠ '\\')
    (hdd : ∀ x ∈ splitSep (replaceBackslash (c :: t)), x ≠ ['.', '.']) :
    is_path_allowed_safe [] cwd allowed_root
      (.str (allowed_root ++ c :: t)) = false := by
  have hrb : replaceBackslash (allowed_root ++ c :: t) =
      allowed_root ++ replaceBackslash (c :: t) := by
    rw [replaceBackslash_append,
      replaceBackslash_eq_self allowed_root (by decide)]
  have hXc : replaceBackslash (c :: t) = c :: replaceBackslash t := by
    simp [replaceBackslash, hc2]
  rw [is_path_allowed_safe, hrb]
  by_cases hnull : '\x00' ∈ allowed_root ++ replaceBackslash (c :: t)
  · rw [pyResolve, if_pos hnull]
  · rw [pyResolve, if_neg hnull, pyResolve_allowed_root,
      if_pos (isabs_root_append _), splitSep_root_append,
      hXc, splitSep_cons_ne c _ hc1]
    simp only [List.headI_cons, List.tail_cons]
    rw [realLoop_no_links, lexLoop_skip_nil,
      lexLoop_push _ _ _ (by decide), lexLoop_push _ _ _ (by decide),
      lexLoop_push _ _ _ (goodSeg_raw_append _), lexLoop_no_dd _ _ ?_,
      joinSegs_root_sibling]
    · exact containment_root_cons_false c _ hc1 hc2
    · intro n hn
      apply hdd
      rw [hXc, splitSep_cons_ne c _ hc1]
      exact List.mem_cons_of_mem _ hn

/-- C1 counterexample: the claim as frozen — validation of `R ++ S` denies
every non-empty suffix `S` not beginning with the canonical separator —
fails at three concrete inputs: `is_path_allowed` accepts the sibling
`R ++ "_backup"` by raw string prefix; and `is_path_allowed_safe` accepts
both `R ++ "\sub"` (the suffix begins with the input separator `'\'`, not
the canonical `'/'`, yet normalizes to a path inside `R`) and
`R ++ "2/../RawRecords/x"` (a sibling suffix whose `..` segment resolves
back inside `R`). -/
theorem c1_prefix_boundary_counterexample :
    is_path_allowed home0 users0 cwd0 allowed_root
      (.str (allowed_root ++ "_backup".toList)) = true ∧
    is_path_allowed_safe [] cwd0 allowed_root
      (.str (allowed_root ++ "\\sub".toList)) = true ∧
    is_path_allowed_safe [] cwd0 allowed_root
      (.str (allowed_root ++ "2/../RawRecords/x".toList)) = true := by
  decide

/-- C1 witness: the amended statement at the spec's concrete deep-sibling
candidate `R ++ "_backup/file.txt"`. -/
theorem c1_prefix_boundary_witness :
    is_path_allowed_safe [] cwd0 allowed_root
      (.str (allowed_root ++ "_backup/file.txt".toList)) = false :=
  c1_prefix_boundary_amended cwd0 '_' "backup/file.txt".toList (by decide)
    (by decide) (by decide)

theorem lexLoop_dd (acc rest : List Str) :
    lexLoop acc (['.', '.'] :: rest) = lexLoop acc.dropLast rest := by
  rw [lexLoop]
  simp

theorem lexLoop_dd_nil (m : Nat) (rest : List Str) :
    lexLoop [] (List.replicate m ['.', '.'] ++ rest) = lexLoop [] rest := by
  induction m with
  | zero => rfl
  | succ m ih =>
    rw [List.replicate_succ, List.cons_append, lexLoop_dd]
    exact ih

theorem splitSep_trav (m : Nat) (y : Str) :
    splitSep ((List.replicate m "/..".toList).flatten ++ '/' :: y) =
      [] :: (List.replicate m ['.', '.'] ++ splitSep y) := by
  induction m with
  | zero => simp [splitSep_sep]
  | succ m ih =>
    rw [show (List.replicate (m + 1) "/..".toList).flatten ++ '/' :: y =
        '/' :: (['.', '.'] ++
          ((List.replicate m "/..".toList).flatten ++ '/' :: y)) from rfl,
      splitSep_sep, splitSep_append_no_sep ['.', '.'] _ (by decide), ih]
    simp [List.replicate_succ]

theorem not_mem_trav (c : Char) (hc1 : c ∉ allowed_root)
    (hc2 : c ∉ "/..".toList) (hc3 : c ∉ "/etc/passwd".toList) (k : Nat) :
    c ∉ allowed_root ++
      ((List.replicate k "/..".toList).flatten ++ "/etc/passwd".toList) := by
  intro h
  rcases List.mem_append.mp h with h | h
  · exact hc1 h
  rcases List.mem_append.mp h with h | h
  · rcases List.mem_flatten.mp h with ⟨l, hl, hc⟩
    rw [List.eq_of_mem_replicate hl] at hc
    exact hc2 hc
  · exact hc3 h

/-- C2 (amended): for the boundary-checked validator `is_path_allowed_safe`
(with no symbolic links involved), the traversal candidate
`R ++ ("/..")^k ++ "/etc/passwd"` is denied for every depth `k ≥ 1`: the
`..` segments are resolved by popping the previous segment before the
containment comparison.  The claim as frozen also asserts this of the
raw-prefix validator `is_path_allowed`, which performs no `..` resolution
at all on absolute inputs and accepts the same candidates (see the
counterexample). -/
theorem c2_traversal_amended (cwd : Str) (k : Nat) (hk : 1 ≤ k) :
    is_path_allowed_safe [] cwd allowed_root
      (.str (allowed_root ++ ((List.replicate k "/..".toList).flatten ++
        "/etc/passwd".toList))) = false := by
  obtain ⟨m, rfl⟩ : ∃ m, k = m + 1 := ⟨k - 1, (Nat.succ_pred_eq_of_pos hk).symm⟩
  have hbs : '\\' ∉ allowed_root ++
      ((List.replicate (m + 1) "/..".toList).flatten ++
        "/etc/passwd".toList) :=
    not_mem_trav '\\' (by decide) (by decide) (by decide) (m + 1)
  have hnull : '\x00' ∉ allowed_root ++
      ((List.replicate (m + 1) "/..".toList).flatten ++
        "/etc/passwd".toList) :=
    not_mem_trav '\x00' (by decide) (by decide) (by decide) (m + 1)
  rw [is_path_allowed_safe, replaceBackslash_eq_self _ hbs, pyResolve,
    if_neg hnull, pyResolve_allowed_root,
    if_pos (isabs_root_append _),
    show allowed_root ++ ((List.replicate (m + 1) "/..".toList).flatten ++
        "/etc/passwd".toList) =
      allowed_root ++ '/' :: (['.', '.'] ++
        ((List.replicate m "/..".toList).flatten ++
          '/' :: "etc/passwd".toList)) from rfl,
    splitSep_root_slash, splitSep_append_no_sep ['.', '.'] _ (by decide),
    splitSep_trav m, realLoop_no_links, lexLoop_skip_nil,
    lexLoop_push _ _ _ (by decide), lexLoop_push _ _ _ (by decide),
    lexLoop_push _ _ _ (by decide)]
  simp only [List.headI_cons, List.tail_cons, List.append_nil]
  rw [lexLoop_dd,
    show splitSep "etc/passwd".toList =
      ["etc".toList, "passwd".toList] from by decide]
  cases m with
  | zero => decide
  | succ m' =>
    cases m' with
    | zero => decide
    | succ m'' =>
      rw [show List.replicate (m'' + 1 + 1) ['.', '.'] ++
            ["etc".toList, "passwd".toList] =
          ['.', '.'] :: (['.', '.'] :: (List.replicate m'' ['.', '.'] ++
            ["etc".toList, "passwd".toList])) from rfl,
        lexLoop_dd, lexLoop_dd]
      rw [show ((([] : List Str) ++ ["home".toList] ++ ["CMU".toList] ++
          ["RawRecords".toList]).dropLast.dropLast.dropLast : List Str) =
          [] from rfl,
        lexLoop_dd_nil]
      decide

/-- C2 counterexample: the claim as frozen says validation of
`R ++ "/../../etc/passwd"` via `is_path_allowed` returns a denial; the
raw string-prefix comparison performs no lexical `..` resolution on
absolute inputs and accepts that candidate. -/
theorem c2_traversal_counterexample :
    is_path_allowed home0 users0 cwd0 allowed_root
      (.str (allowed_root ++ "/../../etc/passwd".toList)) = true := by decide

/-- C2 witness: the amended statement at traversal depth `k = 2`. -/
theorem c2_traversal_witness :
    is_path_allowed_safe [] cwd0 allowed_root
      (.str (allowed_root ++ ((List.replicate 2 "/..".toList).flatten ++
        "/etc/passwd".toList))) = false :=
  c2_traversal_amended cwd0 2 (by decide)

/-- C3 (amended): the boundary-checked validator `is_path_allowed_safe`
denies every input containing the null code point, whatever the symbolic
links on disk: the `ValueError` raised under `resolve` is caught and turned
into `False`, never an acceptance (and, being a total function, it never
propagates a fault).  The claim as frozen also asserts this of
`is_path_allowed`, whose raw string comparison treats the null as an
ordinary character and accepts `R ++ "/file.txt\x00.exe"` (see the
counterexample). -/
theorem c3_null_byte_amended (links : List (List Str × List Str))
    (cwd p : Str) (h : '\x00' ∈ p) :
    is_path_allowed_safe links cwd allowed_root (.str p) = false := by
  have hrb : '\x00' ∈ replaceBackslash p := (null_mem_replaceBackslash p).mpr h
  rw [is_path_allowed_safe, pyResolve, if_pos hrb]

/-- C3 counterexample: the claim as frozen says `is_path_allowed` denies
`R ++ "/file.txt\x00.exe"`; the raw string-prefix comparison never inspects
the null byte and accepts it. -/
theorem c3_null_byte_counterexample :
    is_path_allowed home0 users0 cwd0 allowed_root
      (.str (allowed_root ++ "/file.txt\x00.exe".toList)) = true := by decide

/-- C3 witness: the amended statement at the concrete candidate
`R ++ "/file.txt\x00.exe"`. -/
theorem c3_null_byte_witness :
    is_path_allowed_safe [] cwd0 allowed_root
      (.str (allowed_root ++ "/file.txt\x00.exe".toList)) = false :=
  c3_null_byte_amended [] cwd0 (allowed_root ++ "/file.txt\x00.exe".toList)
    (by decide)

theorem realStep_skip_nil (links : List (List Str × List Str))
    (acc rest : List Str) :
    realStep links acc ([] :: rest) = realStep links acc rest := by
  rw [realStep]
  simp

theorem realStep_push (links : List (List Str × List Str))
    (acc rest : List Str) (n : Str) (hg : goodSeg n)
    (hl : lookupLink links (acc ++ [n]) = none) :
    realStep links acc (n :: rest) = realStep links (acc ++ [n]) rest := by
  obtain ⟨h1, h2, h3⟩ := hg
  rw [realStep]
  simp [h1, h2, h3, hl]

theorem realStep_link (links : List (List Str × List Str))
    (acc rest : List Str) (n : Str) (tgt : List Str) (hg : goodSeg n)
    (hl : lookupLink links (acc ++ [n]) = some tgt) :
    realStep links acc (n :: rest) = Sum.inr (tgt ++ rest) := by
  obtain ⟨h1, h2, h3⟩ := hg
  rw [realStep]
  simp [h1, h2, h3, hl]

/-- C4 (amended): for the resolving validator `is_path_allowed_safe`, a
symbolic link lying lexically inside the root (`R ++ "/" ++ name`, `name`
an ordinary segment) whose recorded target is the outside directory
`/outside/secret` is denied: containment is decided on the symlink-resolved
real path.  The claim as frozen asserts this of validation in general,
but the raw-prefix validator `is_path_allowed` never resolves links and
accepts the same candidate (see the counterexample). -/
theorem c4_symlink_amended (cwd name : Str) (h1 : name ≠ [])
    (h2 : name ≠ ['.']) (h3 : name ≠ ['.', '.'])
    (hsep : ∀ c ∈ name, c ≠ '/') (hbs : '\\' ∉ name)
    (hnull : '\x00' ∉ name) :
    is_path_allowed_safe [(rootSegs ++ [name], outsideSegs)] cwd allowed_root
      (.str (allowed_root ++ '/' :: name)) = false := by
  have hbs' : '\\' ∉ allowed_root ++ '/' :: name := by
    intro hm
    rcases List.mem_append.mp hm with hm | hm
    · exact absurd hm (by decide)
    · rcases List.mem_cons.mp hm with hm | hm
      · exact absurd hm (by decide)
      · exact hbs hm
  have hnull' : '\x00' ∉ allowed_root ++ '/' :: name := by
    intro hm
    rcases List.mem_append.mp hm with hm | hm
    · exact absurd hm (by decide)
    · rcases List.mem_cons.mp hm with hm | hm
      · exact absurd hm (by decide)
      · exact hnull hm
  have hlen : ∀ l : List Str, l.length ≠ 4 →
      lookupLink [(rootSegs ++ [name], outsideSegs)] l = none := by
    intro l hl
    rw [lookupLink, if_neg, lookupLink]
    intro he
    apply hl
    rw [he]
    simp [rootSegs]
  have hgood : goodSeg name := ⟨h1, h2, h3⟩
  have hroot : pyResolve [(rootSegs ++ [name], outsideSegs)] cwd allowed_root =
      some allowed_root := rfl
  have hcand : pyResolve [(rootSegs ++ [name], outsideSegs)] cwd
      (allowed_root ++ '/' :: name) = some (joinSegs outsideSegs) := by
    rw [pyResolve, if_neg hnull', if_pos (isabs_root_append _),
      splitSep_root_slash, splitSep_no_sep name hsep,
      show (40 : Nat) = 39 + 1 from rfl, realLoop, realStep_skip_nil,
      realStep_push _ _ _ _ (by decide) (hlen _ (by decide)),
      realStep_push _ _ _ _ (by decide) (hlen _ (by decide)),
      realStep_push _ _ _ _ (by decide) (hlen _ (by decide)),
      realStep_link _ _ _ name outsideSegs hgood
        (by rw [lookupLink]; exact if_pos rfl)]
    rfl
  rw [is_path_allowed_safe, replaceBackslash_eq_self _ hbs', hcand, hroot]
  decide

/-- C4 counterexample: the claim as frozen says validation denies a symlink
inside `R` that resolves outside `R`; with the link `R/link ->
/outside/secret` on disk, the resolving validator does deny it, but the
lexical raw-prefix validator `is_path_allowed` accepts the very same
candidate, so "validation returns a denial" is false of it. -/
theorem c4_symlink_counterexample :
    is_path_allowed home0 users0 cwd0 allowed_root
      (.str (allowed_root ++ "/link".toList)) = true ∧
    is_path_allowed_safe [(rootSegs ++ ["link".toList], outsideSegs)] cwd0
      allowed_root (.str (allowed_root ++ "/link".toList)) = false := by
  decide

/-- C4 witness: the amended statement at the concrete link name `"link"`. -/
theorem c4_symlink_witness :
    is_path_allowed_safe [(rootSegs ++ ["link".toList], outsideSegs)] cwd0
      allowed_root (.str (allowed_root ++ '/' :: "link".toList)) = false :=
  c4_symlink_amended cwd0 "link".toList (by decide) (by decide) (by decide)
    (by decide) (by decide) (by decide)

/-- C5: the vulnerable gate `is_path_allowed` is total and fail-closed on
malformed types: being a Lean function it returns a boolean on every
`PyValue` (the Python code reaches this by catching every exception), and
every non-string input — `None`, a number, a list — is mapped to the
denial `False`, never to an acceptance. -/
theorem c5_type_confusion (home : Str) (users : List (Str × Str))
    (cwd root : Str) (v : PyValue) (h : v.isStr = false) :
    is_path_allowed home users cwd root v = false := by
  cases v with
  | str s => simp [PyValue.isStr] at h
  | pyNone => rfl
  | int n => rfl
  | list xs => rfl

/-- C5 witness: the type-confusion inputs of the spec, `None`, `123` and
`[]`, are all denied. -/
theorem c5_type_confusion_witness :
    is_path_allowed home0 users0 cwd0 allowed_root PyValue.pyNone = false ∧
    is_path_allowed home0 users0 cwd0 allowed_root (.int 123) = false ∧
    is_path_allowed home0 users0 cwd0 allowed_root (.list []) = false :=
  ⟨c5_type_confusion home0 users0 cwd0 allowed_root PyValue.pyNone rfl,
   c5_type_confusion home0 users0 cwd0 allowed_root (.int 123) rfl,
   c5_type_confusion home0 users0 cwd0 allowed_root (.list []) rfl⟩

theorem splitSep_segs_flatten (segs : List Str) (hne : segs ≠ [])
    (h : ∀ s ∈ segs, ∀ c ∈ s, c ≠ '/') :
    splitSep ((segs.map (fun s => '/' :: s)).flatten) = [] :: segs := by
  induction segs with
  | nil => exact absurd rfl hne
  | cons s ss ih =>
    cases ss with
    | nil =>
      rw [List.map_cons, List.map_nil, List.flatten_cons, List.flatten_nil,
        List.append_nil, splitSep_sep,
        splitSep_no_sep s (h s (List.mem_cons_self s []))]
    | cons t ts =>
      rw [show ((s :: t :: ts).map (fun x => '/' :: x)).flatten =
          '/' :: (s ++ (((t :: ts).map (fun x => '/' :: x)).flatten)) from rfl,
        splitSep_sep,
        splitSep_append_no_sep s _ (h s (List.mem_cons_self s (t :: ts))),
        ih (List.cons_ne_nil t ts)
          (fun x hx => h x (List.mem_cons_of_mem s hx))]
      simp

theorem splitSep_root_descend (segs : List Str) (hne : segs ≠ [])
    (h : ∀ s ∈ segs, ∀ c ∈ s, c ≠ '/') :
    splitSep (allowed_root ++ (segs.map (fun s => '/' :: s)).flatten) =
      [] :: "home".toList :: "CMU".toList :: "RawRecords".toList :: segs := by
  obtain ⟨s, ss, rfl⟩ : ∃ x xs, segs = x :: xs := by
    cases segs with
    | nil => exact absurd rfl hne
    | cons x xs => exact ⟨x, xs, rfl⟩
  rw [show allowed_root ++ ((s :: ss).map (fun x => '/' :: x)).flatten =
      allowed_root ++ '/' ::
        (s ++ ((ss.map (fun x => '/' :: x)).flatten)) from rfl,
    splitSep_root_slash,
    splitSep_append_no_sep s _ (h s (List.mem_cons_self s ss))]
  cases ss with
  | nil => simp [splitSep]
  | cons t ts =>
    rw [splitSep_segs_flatten (t :: ts) (List.cons_ne_nil t ts)
      (fun x hx => h x (List.mem_cons_of_mem s hx))]
    simp

theorem joinSegs_root_descend (segs : List Str) :
    joinSegs (["home".toList, "CMU".toList, "RawRecords".toList] ++ segs) =
      allowed_root ++ (segs.map (fun s => '/' :: s)).flatten := by
  rw [show (["home".toList, "CMU".toList, "RawRecords".toList] ++ segs :
      List Str) =
      "home".toList :: "CMU".toList :: "RawRecords".toList :: segs from rfl,
    joinSegs_cons_eq, List.map_cons, List.map_cons, List.flatten_cons,
    List.flatten_cons,
    show allowed_root ++ (segs.map (fun s => '/' :: s)).flatten =
      '/' :: ("home".toList ++ ('/' :: ("CMU".toList ++ '/' ::
        ("RawRecords".toList ++ (segs.map (fun s => '/' :: s)).flatten))))
      from rfl]
  simp

theorem not_mem_descend (c : Char) (hc : c ∉ allowed_root) (hcs : c ≠ '/')
    (segs : List Str) (h : ∀ s ∈ segs, c ∉ s) :
    c ∉ allowed_root ++ (segs.map (fun s => '/' :: s)).flatten := by
  intro hm
  rcases List.mem_append.mp hm with hm | hm
  · exact hc hm
  · rcases List.mem_flatten.mp hm with ⟨l, hl, hcl⟩
    rcases List.mem_map.mp hl with ⟨s, hs, rfl⟩
    rcases List.mem_cons.mp hcl with hcl | hcl
    · exact hcs hcl
    · exact h s hs hcl

/-- C6: exact and subdirectory acceptance.  Both validators accept the root
itself, and both accept every proper descendant built from ordinary
segments (non-empty, not `.` or `..`, free of separators and nulls),
`R ++ "/" ++ seg_1 ++ "/" ++ ... ++ "/" ++ seg_n`. -/
theorem c6_acceptance (home : Str) (users : List (Str × Str)) (cwd : Str)
    (segs : List Str) (hne : segs ≠ [])
    (hgood : ∀ s ∈ segs, goodSeg s ∧ '/' ∉ s ∧ '\\' ∉ s ∧ '\x00' ∉ s) :
    is_path_allowed home users cwd allowed_root (.str allowed_root) = true ∧
    is_path_allowed_safe [] cwd allowed_root (.str allowed_root) = true ∧
    is_path_allowed home users cwd allowed_root
      (.str (allowed_root ++ (segs.map (fun s => '/' :: s)).flatten)) =
        true ∧
    is_path_allowed_safe [] cwd allowed_root
      (.str (allowed_root ++ (segs.map (fun s => '/' :: s)).flatten)) =
        true := by
  obtain ⟨s0, ss0, hcons⟩ : ∃ x xs, segs = x :: xs := by
    cases segs with
    | nil => exact absurd rfl hne
    | cons x xs => exact ⟨x, xs, rfl⟩
  refine ⟨rfl, rfl, ?_, ?_⟩
  · rw [is_path_allowed]
    have h1 : isPrefixB ['~']
        (allowed_root ++ (segs.map (fun s => '/' :: s)).flatten) = false := by
      rw [hcons]
      rfl
    have h2 : isabs
        (allowed_root ++ (segs.map (fun s => '/' :: s)).flatten) = true :=
      isabs_root_append _
    have h3 : isabs allowed_root = true := rfl
    simp [h1, h2, h3, isPrefixB_append_self, List.length_append]
  · have hbs : '\\' ∉ allowed_root ++
        (segs.map (fun s => '/' :: s)).flatten :=
      not_mem_descend '\\' (by decide) (by decide) segs
        (fun s hs => (hgood s hs).2.2.1)
    have hnull : '\x00' ∉ allowed_root ++
        (segs.map (fun s => '/' :: s)).flatten :=
      not_mem_descend '\x00' (by decide) (by decide) segs
        (fun s hs => (hgood s hs).2.2.2)
    rw [is_path_allowed_safe, replaceBackslash_eq_self _ hbs, pyResolve,
      if_neg hnull, if_pos (isabs_root_append _), pyResolve_allowed_root,
      splitSep_root_descend segs hne
        (fun s hs c hc he => (hgood s hs).2.1 (he ▸ hc)),
      realLoop_no_links, lexLoop_skip_nil, lexLoop_clean _ _ ?_,
      show (([] : List Str) ++ "home".toList :: "CMU".toList ::
        "RawRecords".toList :: segs) =
        ["home".toList, "CMU".toList, "RawRecords".toList] ++ segs from rfl,
      joinSegs_root_descend segs]
    · show containmentDecision
        (allowed_root ++ (segs.map (fun s => '/' :: s)).flatten)
        allowed_root = true
      rw [containmentDecision]
      by_cases he : allowed_root ++ (segs.map (fun s => '/' :: s)).flatten =
          allowed_root
      · rw [if_pos he]
      · rw [if_neg he]
        have hp : isPrefixB (allowed_root ++ ['/'])
            (allowed_root ++ (segs.map (fun s => '/' :: s)).flatten) =
              true := by
          rw [isPrefixB_append_cancel, hcons]
          rw [show (((s0 :: ss0).map (fun s => '/' :: s)).flatten : Str) =
            '/' :: (s0 ++ ((ss0.map (fun s => '/' :: s)).flatten)) from rfl]
          simp [isPrefixB]
        rw [hp]
        simp
    · intro n hn
      rcases List.mem_cons.mp hn with rfl | hn
      · exact (by decide : goodSeg "home".toList)
      rcases List.mem_cons.mp hn with rfl | hn
      · exact (by decide : goodSeg "CMU".toList)
      rcases List.mem_cons.mp hn with rfl | hn
      · exact (by decide : goodSeg "RawRecords".toList)
      · exact (hgood n hn).1

/-- C6 witness: both validators accept the root itself and the concrete
descendant `R ++ "/sub/file.txt"`. -/
theorem c6_acceptance_witness :
    is_path_allowed home0 users0 cwd0 allowed_root (.str allowed_root) =
      true ∧
    is_path_allowed_safe [] cwd0 allowed_root (.str allowed_root) = true ∧
    is_path_allowed home0 users0 cwd0 allowed_root
      (.str (allowed_root ++ "/sub/file.txt".toList)) = true ∧
    is_path_allowed_safe [] cwd0 allowed_root
      (.str (allowed_root ++ "/sub/file.txt".toList)) = true :=
  c6_acceptance home0 users0 cwd0 ["sub".toList, "file.txt".toList]
    (by decide) (by decide)

/-- C7: separator and redundancy normalization.  Both validators accept
`R ++ "//sub/./file.raw"` and `R ++ "\sub\file.raw"`, and the
canonicalization performed inside the boundary-checked validator
(backslash replacement followed by resolve normalization) maps both
candidates to the same canonical form as `R ++ "/sub/file.raw"`. -/
theorem c7_separator_normalization :
    is_path_allowed home0 users0 cwd0 allowed_root
      (.str (allowed_root ++ "//sub/./file.raw".toList)) = true ∧
    is_path_allowed home0 users0 cwd0 allowed_root
      (.str (allowed_root ++ "\\sub\\file.raw".toList)) = true ∧
    is_path_allowed_safe [] cwd0 allowed_root
      (.str (allowed_root ++ "//sub/./file.raw".toList)) = true ∧
    is_path_allowed_safe [] cwd0 allowed_root
      (.str (allowed_root ++ "\\sub\\file.raw".toList)) = true ∧
    canonicalize_safe [] cwd0 (allowed_root ++ "//sub/./file.raw".toList) =
      canonicalize_safe [] cwd0 (allowed_root ++ "/sub/file.raw".toList) ∧
    canonicalize_safe [] cwd0 (allowed_root ++ "\\sub\\file.raw".toList) =
      canonicalize_safe [] cwd0 (allowed_root ++ "/sub/file.raw".toList) := by
  decide

theorem exists_of_isabs (a : Str) (h : isabs a = true) : ∃ t, a = '/' :: t := by
  cases a with
  | nil => simp [isabs, isPrefixB] at h
  | cons c t =>
    rw [isabs, isPrefixB] at h
    simp at h
    obtain ⟨h1, -⟩ := h
    exact ⟨t, by rw [← h1]⟩

theorem mem_joinPath (a b : Str) (c : Char) (h : c ∈ joinPath a b) :
    c ∈ a ∨ c = '/' ∨ c ∈ b := by
  rw [joinPath] at h
  by_cases h1 : isabs b = true
  · rw [if_pos h1] at h
    exact Or.inr (Or.inr h)
  · rw [if_neg h1] at h
    by_cases h2 : a = [] ∨ a.getLast? = some '/'
    · rw [if_pos h2] at h
      rcases List.mem_append.mp h with h | h
      · exact Or.inl h
      · exact Or.inr (Or.inr h)
    · rw [if_neg h2] at h
      rcases List.mem_append.mp h with h | h
      · exact Or.inl h
      · rcases List.mem_cons.mp h with h | h
        · exact Or.inr (Or.inl h)
        · exact Or.inr (Or.inr h)

theorem isabs_joinPath (a b : Str) (ha : isabs a = true) :
    isabs (joinPath a b) = true := by
  obtain ⟨t, rfl⟩ := exists_of_isabs a ha
  rw [joinPath]
  by_cases h1 : isabs b = true
  · rw [if_pos h1]
    exact h1
  · rw [if_neg h1]
    by_cases h2 : ('/' :: t : Str) = [] ∨ ('/' :: t : Str).getLast? = some '/'
    · rw [if_pos h2]
      rfl
    · rw [if_neg h2]
      rfl

theorem isabs_replicate_join (n : Nat) (J : Str) (hn : 1 ≤ n) :
    isabs (if List.replicate n '/' ++ J = [] then ['.']
      else List.replicate n '/' ++ J) = true := by
  obtain ⟨m, rfl⟩ : ∃ m, n = m + 1 := ⟨n - 1, (Nat.succ_pred_eq_of_pos hn).symm⟩
  rw [List.replicate_succ, List.cons_append, if_neg (List.cons_ne_nil _ _)]
  simp [isabs, isPrefixB]

theorem isabs_normpath (p : Str) (h : isabs p = true) :
    isabs (normpath p) = true := by
  obtain ⟨t, rfl⟩ := exists_of_isabs p h
  simp only [normpath, List.cons_ne_nil, if_false, h, eq_self_iff_true,
    if_true]
  exact isabs_replicate_join _ _ (by split <;> omega)

theorem isabs_abspath (cwd p : Str) (h : isabs cwd = true) :
    isabs (abspath cwd p) = true := by
  rw [abspath]
  by_cases hp : isabs p = true
  · rw [if_pos hp]
    exact isabs_normpath p hp
  · rw [if_neg hp]
    exact isabs_normpath _ (isabs_joinPath cwd p h)

theorem isabs_canonicalize_vuln (home : Str) (users : List (Str × Str))
    (cwd p : Str) (h : isabs cwd = true) :
    isabs (canonicalize_vuln home users cwd p) = true := by
  rw [canonicalize_vuln]
  by_cases h1 : isabs (if isPrefixB ['~'] p then expanduser home users p
      else p) = true
  · simp only [h1, if_true]
  · simp only [h1, if_false]
    exact isabs_abspath cwd _ h

theorem canonicalize_vuln_of_abs (home : Str) (users : List (Str × Str))
    (cwd q : Str) (hq : isabs q = true) :
    canonicalize_vuln home users cwd q = q := by
  obtain ⟨t, rfl⟩ := exists_of_isabs q hq
  rfl

theorem canonicalize_safe_joinSegs (cwd : Str) (segs : List Str)
    (hGood : ∀ x ∈ segs, goodSeg x)
    (hSep : ∀ x ∈ segs, ∀ c ∈ x, c ≠ '/')
    (hBs : ∀ x ∈ segs, '\\' ∉ x)
    (hNull : ∀ x ∈ segs, '\x00' ∉ x) :
    canonicalize_safe [] cwd (joinSegs segs) = some (joinSegs segs) := by
  have hqbs : '\\' ∉ joinSegs segs := by
    intro hc
    rcases mem_of_mem_joinSegs segs '\\' hc with hc | ⟨x, hx, hc⟩
    · exact absurd hc (by decide)
    · exact hBs x hx hc
  have hqnull : '\x00' ∉ joinSegs segs := by
    intro hc
    rcases mem_of_mem_joinSegs segs '\x00' hc with hc | ⟨x, hx, hc⟩
    · exact absurd hc (by decide)
    · exact hNull x hx hc
  rw [canonicalize_safe, replaceBackslash_eq_self _ hqbs, pyResolve,
    if_neg hqnull, if_pos (isabs_joinSegs segs), realLoop_no_links]
  cases segs with
  | nil => rfl
  | cons s ss =>
    rw [show joinSegs (s :: ss) = ((s :: ss).map (fun x => '/' :: x)).flatten
        from by rw [joinSegs, if_neg (List.cons_ne_nil s ss)],
      splitSep_segs_flatten (s :: ss) (List.cons_ne_nil s ss) hSep,
      lexLoop_skip_nil, lexLoop_clean _ _ hGood, List.nil_append,
      joinSegs, if_neg (List.cons_ne_nil s ss)]

/-- C8: idempotent canonicalization.  For a working directory that is an
ordinary absolute POSIX path, (a) the canonicalization performed inside
`is_path_allowed_safe` (backslash replacement plus resolve normalization,
over a link-free filesystem) is idempotent on every input that
canonicalizes successfully, and (b) the `expanduser`/`abspath` step
performed inside `is_path_allowed` is idempotent on every string. -/
theorem c8_idempotent_canonicalization (home : Str) (users : List (Str × Str))
    (cwd p : Str) (habs : isabs cwd = true) (hcbs : '\\' ∉ cwd)
    (hcnull : '\x00' ∉ cwd) :
    (∀ q, canonicalize_safe [] cwd p = some q →
      canonicalize_safe [] cwd q = some q) ∧
    canonicalize_vuln home users cwd (canonicalize_vuln home users cwd p) =
      canonicalize_vuln home users cwd p := by
  constructor
  · intro q hq
    rw [canonicalize_safe, pyResolve] at hq
    by_cases hnp : '\x00' ∈ replaceBackslash p
    · rw [if_pos hnp] at hq
      exact absurd hq (by simp)
    · rw [if_neg hnp, realLoop_no_links] at hq
      have hq' : joinSegs (lexLoop [] (splitSep
          (if isabs (replaceBackslash p) = true then replaceBackslash p
            else joinPath cwd (replaceBackslash p)))) = q :=
        Option.some.inj hq
      have hQbs : '\\' ∉ (if isabs (replaceBackslash p) = true
          then replaceBackslash p else joinPath cwd (replaceBackslash p)) := by
        by_cases hab : isabs (replaceBackslash p) = true
        · rw [if_pos hab]
          exact not_backslash_mem_replaceBackslash p
        · rw [if_neg hab]
          intro hm
          rcases mem_joinPath _ _ _ hm with hm | hm | hm
          · exact hcbs hm
          · exact absurd hm (by decide)
          · exact not_backslash_mem_replaceBackslash p hm
      have hQnull : '\x00' ∉ (if isabs (replaceBackslash p) = true
          then replaceBackslash p else joinPath cwd (replaceBackslash p)) := by
        by_cases hab : isabs (replaceBackslash p) = true
        · rw [if_pos hab]
          exact hnp
        · rw [if_neg hab]
          intro hm
          rcases mem_joinPath _ _ _ hm with hm | hm | hm
          · exact hcnull hm
          · exact absurd hm (by decide)
          · exact hnp hm
      have hsegs : ∀ x ∈ lexLoop [] (splitSep
          (if isabs (replaceBackslash p) = true then replaceBackslash p
            else joinPath cwd (replaceBackslash p))),
          goodSeg x ∧ (∀ c ∈ x, c ∈ (if isabs (replaceBackslash p) = true
            then replaceBackslash p
            else joinPath cwd (replaceBackslash p)) ∧ c ≠ '/') := by
        intro x hx
        rcases lexLoop_mem [] _ (by simp) x hx with ⟨hg, hin⟩
        rcases hin with hin | hin
        · simp at hin
        · exact ⟨hg, fun c hc => splitSep_chars _ x hin c hc⟩
      rw [← hq']
      exact canonicalize_safe_joinSegs cwd _
        (fun x hx => (hsegs x hx).1)
        (fun x hx c hc => ((hsegs x hx).2 c hc).2)
        (fun x hx hc => hQbs ((hsegs x hx).2 '\\' hc).1)
        (fun x hx hc => hQnull ((hsegs x hx).2 '\x00' hc).1)
  · exact canonicalize_vuln_of_abs home users cwd _
      (isabs_canonicalize_vuln home users cwd p habs)

/-- C8 witness: the idempotence statements at the concrete inputs
`"/home/CMU/RawRecords//x/../y"` (safe canonicalization) and `"~/../x"`
(the `expanduser`/`abspath` step). -/
theorem c8_idempotent_canonicalization_witness :
    canonicalize_safe [] cwd0 "/home/CMU/RawRecords//x/../y".toList =
      some "/home/CMU/RawRecords/y".toList ∧
    canonicalize_safe [] cwd0 "/home/CMU/RawRecords/y".toList =
      some "/home/CMU/RawRecords/y".toList ∧
    canonicalize_vuln home0 users0 cwd0
        (canonicalize_vuln home0 users0 cwd0 "~/../x".toList) =
      canonicalize_vuln home0 users0 cwd0 "~/../x".toList :=
  ⟨by decide,
   (c8_idempotent_canonicalization home0 users0 cwd0
      "/home/CMU/RawRecords//x/../y".toList (by decide) (by decide)
      (by decide)).1 "/home/CMU/RawRecords/y".toList (by decide),
   (c8_idempotent_canonicalization home0 users0 cwd0 "~/../x".toList
      (by decide) (by decide) (by decide)).2⟩

theorem validate_client_input_true_iff (s : Str) :
    (validate_client_input (.str s)).1 = true ↔
      (s.length ≤ max_password_length ∧ '\x00' ∉ s ∧
        ∀ c ∈ control_chars, c ∉ s) := by
  rw [validate_client_input]
  by_cases h1 : max_password_length < s.length
  · rw [if_pos h1]
    simp only [Bool.false_eq_true, false_iff]
    rintro ⟨hlen, -, -⟩
    omega
  · rw [if_neg h1]
    by_cases h2 : '\x00' ∈ s
    · rw [if_pos h2]
      simp only [Bool.false_eq_true, false_iff]
      rintro ⟨-, hnull, -⟩
      exact hnull h2
    · rw [if_neg h2]
      cases hf : control_chars.find? (fun c => s.contains c) with
      | some c =>
        simp only [Bool.false_eq_true, false_iff]
        rintro ⟨-, -, hctl⟩
        exact hctl c (List.mem_of_find?_eq_some hf)
          (by simpa using List.find?_some hf)
      | none =>
        simp only [true_iff]
        refine ⟨Nat.le_of_not_lt h1, h2, ?_⟩
        intro c hc hcs
        exact List.find?_eq_none.mp hf c hc (by simpa using hcs)

/-- C9: the client-side credential validator `validate_client_input` returns
a result pair rather than raising, and it accepts exactly the string
passwords of length at most 16 that contain neither a null byte nor a
character of the blocked control-character list; `None`, non-strings, and
every other violation yield a failure result. -/
theorem c9_validate_client_input_spec (v : PyValue) :
    (validate_client_input v).1 = true ↔
      ∃ s, v = PyValue.str s ∧ s.length ≤ max_password_length ∧
        '\x00' ∉ s ∧ ∀ c ∈ control_chars, c ∉ s := by
  cases v with
  | pyNone => simp [validate_client_input]
  | int n => simp [validate_client_input]
  | list xs => simp [validate_client_input]
  | str s =>
    rw [validate_client_input_true_iff s]
    constructor
    · intro h
      exact ⟨s, rfl, h⟩
    · rintro ⟨s', he, h⟩
      rw [PyValue.str.injEq] at he
      subst he
      exact h

/-- C10: whitespace control characters are permitted credentials: a string
password of length at most 16, free of nulls, whose characters below code
point `0x20` are all among tab, line feed, vertical tab, form feed and
carriage return passes validation; in particular the vertical tab `\x0b`
is absent from the blocked control-character list. -/
theorem c10_whitespace_controls :
    '\x0b' ∉ control_chars ∧
    ∀ s : Str, s.length ≤ max_password_length → '\x00' ∉ s →
      (∀ c ∈ s, c.toNat < 32 →
        c = '\x09' ∨ c = '\x0a' ∨ c = '\x0b' ∨ c = '\x0c' ∨ c = '\x0d') →
      (validate_client_input (.str s)).1 = true := by
  refine ⟨by decide, ?_⟩
  intro s hlen hnull hws
  rw [validate_client_input_true_iff s]
  refine ⟨hlen, hnull, ?_⟩
  intro c hc hcs
  have hprop : c.toNat < 32 ∧ c ≠ '\x09' ∧ c ≠ '\x0a' ∧ c ≠ '\x0b' ∧
      c ≠ '\x0c' ∧ c ≠ '\x0d' := by
    revert hc
    have : ∀ d ∈ control_chars, d.toNat < 32 ∧ d ≠ '\x09' ∧ d ≠ '\x0a' ∧
        d ≠ '\x0b' ∧ d ≠ '\x0c' ∧ d ≠ '\x0d' := by decide
    exact this c
  rcases hws c hcs hprop.1 with h | h | h | h | h
  · exact hprop.2.1 h
  · exact hprop.2.2.1 h
  · exact hprop.2.2.2.1 h
  · exact hprop.2.2.2.2.1 h
  · exact hprop.2.2.2.2.2 h

/-- C10 witness: the concrete password `"pw\x09\x0b\x0d"` (with tab,
vertical tab and carriage return) passes validation. -/
theorem c10_whitespace_controls_witness :
    (validate_client_input (.str "pw\x09\x0b\x0d".toList)).1 = true :=
  c10_whitespace_controls.2 "pw\x09\x0b\x0d".toList (by decide) (by decide)
    (by decide)
